import Mathlib

set_option linter.unusedVariables false

/- Shallow embedding of the groupurl grouping engine (groupurl.go, classifier.go).
   Go strings are modelled as List Char, Go map[string]int and map[LabelFields]*urlNode
   as association lists, Go int as Int where sign matters (Nat for lengths/counts),
   and float64 arithmetic as exact rational arithmetic over the rationals. -/

/-- Per-character model of strings.ToLower. -/
def toLowerL (s : List Char) : List Char := s.map Char.toLower

/-- strings.TrimLeft(s, "/"): drop all leading '/' characters. -/
def trimLeftSlash : List Char → List Char
  | [] => []
  | c :: rest => if c = '/' then trimLeftSlash rest else c :: rest

/-- strings.TrimRight(s, "/"): drop all trailing '/' characters. -/
def trimRightSlash (s : List Char) : List Char :=
  (trimLeftSlash s.reverse).reverse

/-- strings.Count(s, "/"): the number of '/' characters in s. -/
def countSlash : List Char → Nat
  | [] => 0
  | c :: rest => (if c = '/' then 1 else 0) + countSlash rest

/-- strings.HasPrefix(path, pre), with the candidate p given first:
isPrefixL p path is true when p is a prefix of path. -/
def isPrefixL : List Char → List Char → Bool
  | [], _ => true
  | _ :: _, [] => false
  | a :: as, b :: bs => if a = b then isPrefixL as bs else false

/-- Association-list model of Go map lookup (map[string]int). -/
def lookupCount : List (List Char × Nat) → List Char → Option Nat
  | [], _ => none
  | (k, v) :: rest, key => if k = key then some v else lookupCount rest key

/-- Key membership test of the Go map. -/
def containsKey (m : List (List Char × Nat)) (key : List Char) : Bool :=
  (lookupCount m key).isSome

/-- m[key]++ of a Go map: increment the existing entry, or insert the key with count 1. -/
def bump : List (List Char × Nat) → List Char → List (List Char × Nat)
  | [], key => [(key, 1)]
  | (k, v) :: rest, key => if k = key then (k, v + 1) :: rest else (k, v) :: bump rest key

/-- Sum of all stored counts of the map. -/
def sumCounts : List (List Char × Nat) → Nat
  | [] => 0
  | (_, v) :: rest => v + sumCounts rest

/-- caseInsensitiveStringCounter of groupurl.go. -/
structure caseInsensitiveStringCounter where
  limit : Int
  total : Nat
  tokenCounts : List (List Char × Nat)
deriving DecidableEq

/-- newCaseInsensitiveStringCounter of groupurl.go. -/
def newCaseInsensitiveStringCounter (limit : Int) : caseInsensitiveStringCounter :=
  ⟨limit, 0, []⟩

/-- The reserved overflow key "cardinality" of caseInsensitiveStringCounter.add. -/
def overflowKey : List Char := "cardinality".toList

/-- caseInsensitiveStringCounter.add of groupurl.go: if the lower-cased key exists,
or the limit is 0, or the number of distinct keys is below the limit, increment that
key; otherwise increment the overflow key "cardinality". Always increment total. -/
def caseInsensitiveStringCounter.add (c : caseInsensitiveStringCounter) (s : List Char) :
    caseInsensitiveStringCounter :=
  if containsKey c.tokenCounts (toLowerL s) || decide (c.limit = 0) ||
      decide ((c.tokenCounts.length : Int) < c.limit) then
    ⟨c.limit, c.total + 1, bump c.tokenCounts (toLowerL s)⟩
  else
    ⟨c.limit, c.total + 1, bump c.tokenCounts overflowKey⟩

/-- caseInsensitiveStringCounter.population of groupurl.go: len(c.tokenCounts). -/
def caseInsensitiveStringCounter.population (c : caseInsensitiveStringCounter) : Nat :=
  c.tokenCounts.length

/-- caseInsensitiveStringCounter.get of groupurl.go: stored count of the lower-cased key, 0 if absent. -/
def caseInsensitiveStringCounter.get (c : caseInsensitiveStringCounter) (s : List Char) : Nat :=
  (lookupCount c.tokenCounts (toLowerL s)).getD 0

/-- caseInsensitiveStringCounter.isSignificant of groupurl.go. The two float64
divisions are modelled as exact rational divisions and the float64 literal 0.01
as the rational 1/100. -/
def caseInsensitiveStringCounter.isSignificant (c : caseInsensitiveStringCounter)
    (s : List Char) : Bool :=
  (decide ((c.tokenCounts.length : Int) < c.limit) || decide (c.limit = 0)) &&
    (decide ((c.population : ℚ) / (c.total : ℚ) < (1 : ℚ)/100) ||
      decide ((c.get s : ℚ) / (c.total : ℚ) > (c.population : ℚ) / (c.total : ℚ)))

/-- A float64 division site of isSignificant: the quotient together with the divisor used. -/
def tracedDiv (a b : ℚ) : ℚ × ℚ := (a / b, b)

/-- isSignificant instrumented to record the divisor of each of the two float64
divisions the source performs unconditionally (averageSizePerToken and
tokenPerPopulation both divide by total). -/
def isSignificantTraced (c : caseInsensitiveStringCounter) (s : List Char) : Bool × List ℚ :=
  ((decide ((c.tokenCounts.length : Int) < c.limit) || decide (c.limit = 0)) &&
      (decide ((tracedDiv (c.population : ℚ) (c.total : ℚ)).1 < (1 : ℚ)/100) ||
        decide ((tracedDiv (c.get s : ℚ) (c.total : ℚ)).1 >
          (tracedDiv (c.population : ℚ) (c.total : ℚ)).1)),
    [(tracedDiv (c.population : ℚ) (c.total : ℚ)).2,
      (tracedDiv (c.get s : ℚ) (c.total : ℚ)).2])

/-- A sequence of add calls, left to right. -/
def addAll (c : caseInsensitiveStringCounter) (ss : List (List Char)) :
    caseInsensitiveStringCounter :=
  ss.foldl caseInsensitiveStringCounter.add c

/-- LabelFields of classifier.go. -/
structure LabelFields where
  Important : Bool
  CardinalityLimit : Int
  Value : List Char
deriving DecidableEq

/-- LabelFields.cardinalityLimit of classifier.go: -1 when CardinalityLimit is 0
and the label is not Important, otherwise CardinalityLimit verbatim. -/
def LabelFields.cardinalityLimit (l : LabelFields) : Int :=
  if l.CardinalityLimit = 0 ∧ l.Important = false then -1 else l.CardinalityLimit

/-- Label of classifier.go: the embedded specific fields plus an optional parent. -/
structure Label where
  fields : LabelFields
  parent : LabelFields
deriving DecidableEq

/-- Label.parentOrSelf of classifier.go. -/
def Label.parentOrSelf (l : Label) : LabelFields :=
  if l.parent.Value ≠ [] then l.parent else l.fields

/-- Label.isZero of classifier.go. -/
def Label.isZero (l : Label) : Bool :=
  l.fields.Value = ([] : List Char)

/-- The zero value of LabelFields (Go's LabelFields{}). -/
def zeroLabelFields : LabelFields := ⟨false, 0, []⟩

/-- pathToken of classifier.go. -/
structure pathToken where
  token : List Char
  label : Label
deriving DecidableEq

/-- add leaves the limit unchanged. -/
theorem counterAdd_limit (c : caseInsensitiveStringCounter) (s : List Char) :
    (c.add s).limit = c.limit := by
  unfold caseInsensitiveStringCounter.add
  split <;> rfl

/-- add increments total by exactly one. -/
theorem counterAdd_total (c : caseInsensitiveStringCounter) (s : List Char) :
    (c.add s).total = c.total + 1 := by
  unfold caseInsensitiveStringCounter.add
  split <;> rfl

/-- addAll leaves the limit unchanged. -/
theorem addAll_limit (ss : List (List Char)) :
    ∀ c : caseInsensitiveStringCounter, (addAll c ss).limit = c.limit := by
  induction ss with
  | nil => intro c; rfl
  | cons s ss ih =>
    intro c
    have h := ih (c.add s)
    simpa [addAll, List.foldl_cons, counterAdd_limit] using h

/-- Bumping an existing key does not change the number of keys. -/
theorem bump_length_of_mem (m : List (List Char × Nat)) (k : List Char)
    (h : containsKey m k = true) : (bump m k).length = m.length := by
  induction m with
  | nil => simp [containsKey, lookupCount] at h
  | cons p rest ih =>
    obtain ⟨a, v⟩ := p
    by_cases ha : a = k
    · simp [bump, ha]
    · have h' : containsKey rest k = true := by
        simpa [containsKey, lookupCount, ha] using h
      simp [bump, ha, ih h']

/-- Bumping an absent key adds one key. -/
theorem bump_length_of_not_mem (m : List (List Char × Nat)) (k : List Char)
    (h : containsKey m k = false) : (bump m k).length = m.length + 1 := by
  induction m with
  | nil => rfl
  | cons p rest ih =>
    obtain ⟨a, v⟩ := p
    by_cases ha : a = k
    · simp [containsKey, lookupCount, ha] at h
    · have h' : containsKey rest k = false := by
        simpa [containsKey, lookupCount, ha] using h
      simp [bump, ha, ih h']

/-- The bumped key is present afterwards. -/
theorem containsKey_bump_self (m : List (List Char × Nat)) (k : List Char) :
    containsKey (bump m k) k = true := by
  induction m with
  | nil => simp [bump, containsKey, lookupCount]
  | cons p rest ih =>
    obtain ⟨a, v⟩ := p
    by_cases ha : a = k
    · simp [bump, ha, containsKey, lookupCount]
    · simpa [bump, ha, containsKey, lookupCount] using ih

/-- Bumping preserves the presence of any key. -/
theorem containsKey_bump_of_mem (m : List (List Char × Nat)) (k k' : List Char)
    (h : containsKey m k' = true) : containsKey (bump m k) k' = true := by
  induction m with
  | nil => simp [containsKey, lookupCount] at h
  | cons p rest ih =>
    obtain ⟨a, v⟩ := p
    by_cases ha : a = k
    · by_cases ha' : a = k'
      · have hkk : k = k' := ha.symm.trans ha'
        simp [bump, ha, containsKey, lookupCount, hkk]
      · have hkk : ¬ k = k' := fun he => ha' (ha.trans he)
        have h' : containsKey rest k' = true := by
          simpa [containsKey, lookupCount, ha'] using h
        simpa [bump, ha, containsKey, lookupCount, hkk] using h'
    · by_cases ha' : a = k'
      · have hkk : ¬ k' = k := fun he => ha (ha'.trans he)
        simp [bump, containsKey, lookupCount, ha', hkk]
      · have h' : containsKey rest k' = true := by
          simpa [containsKey, lookupCount, ha'] using h
        simpa [bump, ha, containsKey, lookupCount, ha'] using ih h'

/-- Bumping adds exactly one to the sum of all stored counts. -/
theorem sumCounts_bump (m : List (List Char × Nat)) (k : List Char) :
    sumCounts (bump m k) = sumCounts m + 1 := by
  induction m with
  | nil => rfl
  | cons p rest ih =>
    obtain ⟨a, v⟩ := p
    by_cases ha : a = k
    · simp [bump, ha, sumCounts]; omega
    · simp [bump, ha, sumCounts, ih]; omega

/-- add adds exactly one to the sum of all stored counts. -/
theorem counterAdd_sum (c : caseInsensitiveStringCounter) (s : List Char) :
    sumCounts (c.add s).tokenCounts = sumCounts c.tokenCounts + 1 := by
  unfold caseInsensitiveStringCounter.add
  split <;> simp [sumCounts_bump]

/-- The sum of counts tracks total across any add sequence. -/
theorem sumCounts_addAll (ss : List (List Char)) :
    ∀ c : caseInsensitiveStringCounter, sumCounts c.tokenCounts = c.total →
      sumCounts (addAll c ss).tokenCounts = (addAll c ss).total := by
  induction ss with
  | nil => intro c h; exact h
  | cons s ss ih =>
    intro c h
    have h' : sumCounts (c.add s).tokenCounts = (c.add s).total := by
      rw [counterAdd_sum, counterAdd_total, h]
    simpa [addAll, List.foldl_cons] using ih (c.add s) h'

/-- C9: starting from a fresh counter with any limit, after any sequence of add
calls the sum of the stored counts over all tracked keys equals total, and one
further add increments total by exactly one. -/
theorem counter_total_conserved (limit : Int) (ss : List (List Char)) (s : List Char) :
    sumCounts (addAll (newCaseInsensitiveStringCounter limit) ss).tokenCounts =
      (addAll (newCaseInsensitiveStringCounter limit) ss).total ∧
    ((addAll (newCaseInsensitiveStringCounter limit) ss).add s).total =
      (addAll (newCaseInsensitiveStringCounter limit) ss).total + 1 :=
  ⟨sumCounts_addAll ss _ rfl, counterAdd_total _ s⟩

/-- Invariant of the bounded counter: the key population is within the limit, or
it is within limit + 1 and the overflow key is among the tracked keys. -/
def counterInv (c : caseInsensitiveStringCounter) : Prop :=
  (c.tokenCounts.length : Int) ≤ c.limit ∨
    ((c.tokenCounts.length : Int) ≤ c.limit + 1 ∧
      containsKey c.tokenCounts overflowKey = true)

/-- add preserves the population invariant when the limit is not zero. -/
theorem counterInv_add (c : caseInsensitiveStringCounter) (s : List Char)
    (hlim : c.limit ≠ 0) (hinv : counterInv c) : counterInv (c.add s) := by
  by_cases hmem : containsKey c.tokenCounts (toLowerL s) = true
  · have hb : c.add s = ⟨c.limit, c.total + 1, bump c.tokenCounts (toLowerL s)⟩ := by
      unfold caseInsensitiveStringCounter.add
      simp [hmem]
    rw [hb]
    rcases hinv with h | ⟨h1, h2⟩
    · exact Or.inl (by simpa [bump_length_of_mem _ _ hmem] using h)
    · exact Or.inr ⟨by simpa [bump_length_of_mem _ _ hmem] using h1,
        containsKey_bump_of_mem _ _ _ h2⟩
  · have hmem' : containsKey c.tokenCounts (toLowerL s) = false := by
      simpa using hmem
    by_cases hlt : (c.tokenCounts.length : Int) < c.limit
    · have hb : c.add s = ⟨c.limit, c.total + 1, bump c.tokenCounts (toLowerL s)⟩ := by
        unfold caseInsensitiveStringCounter.add
        simp [hlt]
      rw [hb]
      refine Or.inl ?_
      rw [bump_length_of_not_mem _ _ hmem']
      push_cast
      omega
    · have hb : c.add s = ⟨c.limit, c.total + 1, bump c.tokenCounts overflowKey⟩ := by
        unfold caseInsensitiveStringCounter.add
        simp [hmem', hlim, hlt]
      rw [hb]
      by_cases hover : containsKey c.tokenCounts overflowKey = true
      · rcases hinv with h | ⟨h1, h2⟩
        · exact Or.inl (by simpa [bump_length_of_mem _ _ hover] using h)
        · exact Or.inr ⟨by simpa [bump_length_of_mem _ _ hover] using h1,
            containsKey_bump_of_mem _ _ _ h2⟩
      · have hover' : containsKey c.tokenCounts overflowKey = false := by
          simpa using hover
        have hle : (c.tokenCounts.length : Int) ≤ c.limit := by
          rcases hinv with h | ⟨h1, h2⟩
          · exact h
          · rw [h2] at hover'
            cases hover'
        refine Or.inr ⟨?_, containsKey_bump_self _ _⟩
        rw [bump_length_of_not_mem _ _ hover']
        push_cast
        omega

/-- The population invariant holds after any add sequence. -/
theorem counterInv_addAll (ss : List (List Char)) :
    ∀ c : caseInsensitiveStringCounter, c.limit ≠ 0 → counterInv c →
      counterInv (addAll c ss) := by
  induction ss with
  | nil => intro c _ h; exact h
  | cons s ss ih =>
    intro c hlim hinv
    have h := ih (c.add s) (by rw [counterAdd_limit]; exact hlim)
      (counterInv_add c s hlim hinv)
    simpa [addAll, List.foldl_cons] using h

/-- C3 counterexample: with limit 1 (which is not 0), two adds of distinct keys
leave a population of 2, which exceeds the limit, while a non-zero key exists. -/
theorem counter_population_exceeds_limit :
    (addAll (newCaseInsensitiveStringCounter 1) [("a".toList), ("b".toList)]).limit = 1 ∧
    (1 : Int) ≠ 0 ∧
    (addAll (newCaseInsensitiveStringCounter 1) [("a".toList), ("b".toList)]).get ("a".toList) = 1 ∧
    (addAll (newCaseInsensitiveStringCounter 1) [("a".toList), ("b".toList)]).population = 2 ∧
    ¬ (((2 : Nat) : Int) ≤ 1) := by
  decide

/-- C3 amended: starting from a fresh counter with positive limit, after any
sequence of add calls the population never exceeds limit + 1 (the reserved
overflow key "cardinality" can push the population one past the limit). -/
theorem counter_population_le_limit_succ (limit : Int) (hpos : 0 < limit)
    (ss : List (List Char)) :
    ((addAll (newCaseInsensitiveStringCounter limit) ss).population : Int) ≤ limit + 1 := by
  have hstart : counterInv (newCaseInsensitiveStringCounter limit) := by
    unfold counterInv newCaseInsensitiveStringCounter
    left
    show (0 : Int) ≤ limit
    omega
  have hinv := counterInv_addAll ss (newCaseInsensitiveStringCounter limit)
    (by show limit ≠ 0; omega) hstart
  have hl := addAll_limit ss (newCaseInsensitiveStringCounter limit)
  unfold counterInv at hinv
  rw [hl] at hinv
  rcases hinv with h | ⟨h1, _⟩
  · calc ((addAll (newCaseInsensitiveStringCounter limit) ss).population : Int)
        ≤ limit := h
      _ ≤ limit + 1 := by omega
  · exact h1

/-- C3 witness at a concrete input: limit 1, adds "a" then "b". -/
theorem counter_population_le_limit_succ_witness :
    (0 : Int) < 1 ∧
    ((addAll (newCaseInsensitiveStringCounter 1)
        [("a".toList), ("b".toList)]).population : Int) ≤ 1 + 1 :=
  ⟨by decide, counter_population_le_limit_succ 1 (by decide) [("a".toList), ("b".toList)]⟩

/-- C4 counterexample: for a non-Important label with CardinalityLimit 0,
cardinalityLimit() returns -1, not 0 as the claim states. -/
theorem cardinalityLimit_zero_case_cex :
    LabelFields.cardinalityLimit ⟨false, 0, ("x".toList)⟩ = -1 ∧ ((-1 : Int) ≠ 0) := by
  decide

/-- C4 amended: cardinalityLimit() returns -1 (not 0) when CardinalityLimit is 0
and the label is not Important; otherwise it returns CardinalityLimit verbatim
(including 0 meaning unbounded when Important is true). -/
theorem cardinalityLimit_spec (l : LabelFields) :
    (l.CardinalityLimit = 0 ∧ l.Important = false → l.cardinalityLimit = -1) ∧
    ((l.CardinalityLimit ≠ 0 ∨ l.Important = true) →
      l.cardinalityLimit = l.CardinalityLimit) := by
  constructor
  · intro h
    simp [LabelFields.cardinalityLimit, h.1, h.2]
  · intro h
    unfold LabelFields.cardinalityLimit
    rcases h with h | h
    · simp [h]
    · simp [h]

/-- C4 witness at concrete inputs covering both branches. -/
theorem cardinalityLimit_spec_witness :
    LabelFields.cardinalityLimit ⟨false, 0, ("x".toList)⟩ = -1 ∧
    LabelFields.cardinalityLimit ⟨true, 0, ("x".toList)⟩ = 0 :=
  ⟨(cardinalityLimit_spec ⟨false, 0, ("x".toList)⟩).1 ⟨rfl, rfl⟩,
    (cardinalityLimit_spec ⟨true, 0, ("x".toList)⟩).2 (Or.inr rfl)⟩

/-- C7: for a counter with at least one add recorded, isSignificant is true exactly
when (a) the population is under the limit or the limit is 0, and (b) the average
share per tracked key is below 1/100 or this token's share exceeds that average
(float64 arithmetic modelled as exact rational arithmetic). -/
theorem isSignificant_iff (c : caseInsensitiveStringCounter) (s : List Char)
    (h : 1 ≤ c.total) :
    c.isSignificant s = true ↔
      (((c.population : Int) < c.limit ∨ c.limit = 0) ∧
        ((c.population : ℚ) / (c.total : ℚ) < (1 : ℚ)/100 ∨
          (c.get s : ℚ) / (c.total : ℚ) > (c.population : ℚ) / (c.total : ℚ))) := by
  simp [caseInsensitiveStringCounter.isSignificant, caseInsensitiveStringCounter.population]

/-- Concrete counter for the C7 witness: one add on an unbounded counter. -/
def counterC7 : caseInsensitiveStringCounter :=
  (newCaseInsensitiveStringCounter 0).add ("a".toList)

/-- C7 witness at a concrete input with total 1. -/
theorem isSignificant_iff_witness :
    1 ≤ counterC7.total ∧
      (counterC7.isSignificant ("a".toList) = true ↔
        (((counterC7.population : Int) < counterC7.limit ∨ counterC7.limit = 0) ∧
          ((counterC7.population : ℚ) / (counterC7.total : ℚ) < (1 : ℚ)/100 ∨
            (counterC7.get ("a".toList) : ℚ) / (counterC7.total : ℚ) >
              (counterC7.population : ℚ) / (counterC7.total : ℚ)))) :=
  ⟨by decide, isSignificant_iff counterC7 ("a".toList) (by decide)⟩

/-- C8: the instrumented isSignificant computes the same Boolean as the embedding
and records total as the divisor of both float64 divisions; on a counter with
total 0 (fresh counter before any add) the recorded divisors contain 0, i.e. the
code performs divisions by zero, with no guard on total. -/
theorem isSignificant_zero_total_divides :
    (∀ (c : caseInsensitiveStringCounter) (s : List Char),
        (isSignificantTraced c s).1 = c.isSignificant s) ∧
    (newCaseInsensitiveStringCounter 3).total = 0 ∧
    (0 : ℚ) ∈ (isSignificantTraced (newCaseInsensitiveStringCounter 3) ("a".toList)).2 := by
  refine ⟨fun c s => rfl, rfl, ?_⟩
  simp [isSignificantTraced, tracedDiv, newCaseInsensitiveStringCounter]

/-- PathTokenClassifier of classifier.go, modelled by its Check method: from the
unconsumed remainder, a Label (the zero Label for no match) and the matched piece. -/
def PathTokenClassifier : Type := List Char → Label × List Char

/-- The fallback "Unknown" label of labelPathToken and labelPathTokens. -/
def unknownLabel : Label := ⟨⟨false, 0, "Unknown".toList⟩, zeroLabelFields⟩

/-- labelPathToken of classifier.go: the first classifier returning a non-zero
label wins; the fallback is the "Unknown" label with the whole remainder as match. -/
def labelPathToken (path : List Char) : List PathTokenClassifier → Label × List Char
  | [] => (unknownLabel, path)
  | c :: rest =>
    if (c path).1.isZero then labelPathToken path rest else c path

/-- labelPathTokens of classifier.go with an explicit fuel bound on the number of
loop iterations; none is returned when the loop does not finish within the fuel
(the Go loop has no such bound, so the fuel makes divergence observable). -/
def labelPathTokensFuel : Nat → List Char → List PathTokenClassifier → Option (List pathToken)
  | 0, _, _ => none
  | _ + 1, [], _ => some []
  | n + 1, ch :: rest, cs =>
    if ch = '/' then labelPathTokensFuel n rest cs
    else
      let r := labelPathToken (ch :: rest) cs
      if isPrefixL r.2 (ch :: rest) then
        match labelPathTokensFuel n ((ch :: rest).drop r.2.length) cs with
        | none => none
        | some ts => some (⟨trimRightSlash r.2, r.1⟩ :: ts)
      else
        some [⟨ch :: rest, unknownLabel⟩]

/-- urlNode of groupurl.go: display label, child edges keyed by LabelFields
value, and the per-position counter. -/
inductive urlNode : Type where
  | mk : LabelFields → List (LabelFields × urlNode) → caseInsensitiveStringCounter → urlNode

/-- The specificLabel field of urlNode. -/
def urlNode.specificLabel : urlNode → LabelFields
  | .mk l _ _ => l

/-- The children field of urlNode. -/
def urlNode.children : urlNode → List (LabelFields × urlNode)
  | .mk _ c _ => c

/-- The tokenCounts field of urlNode. -/
def urlNode.tokenCounts : urlNode → caseInsensitiveStringCounter
  | .mk _ _ t => t

/-- newURLNode of groupurl.go: counter sized by the label's derived cardinalityLimit. -/
def newURLNode (label : LabelFields) : urlNode :=
  .mk label [] (newCaseInsensitiveStringCounter label.cardinalityLimit)

/-- Go map lookup on the children map (map[LabelFields]*urlNode, value equality). -/
def lookupChild : List (LabelFields × urlNode) → LabelFields → Option urlNode
  | [], _ => none
  | (k, v) :: rest, key => if k = key then some v else lookupChild rest key

/-- Go map assignment children[key] = node. -/
def insertChild : List (LabelFields × urlNode) → LabelFields → urlNode →
    List (LabelFields × urlNode)
  | [], key, node => [(key, node)]
  | (k, v) :: rest, key, node =>
    if k = key then (key, node) :: rest else (k, v) :: insertChild rest key node

/-- urlTree of groupurl.go. -/
structure urlTree where
  Root : urlNode

/-- newURLTree of groupurl.go: a root node carrying the zero LabelFields. -/
def newURLTree : urlTree := ⟨newURLNode zeroLabelFields⟩

/-- The simplification walk of urlTree.path of groupurl.go, started at any node:
missing edge appends the remaining raw tokens verbatim and stops; otherwise emit
the raw token when the child's display label is Important and its counter judges
the token significant, else the display label's Value, and descend. -/
def pathWalk : urlNode → List pathToken → List (List Char)
  | _, [] => []
  | current, token :: rest =>
    match lookupChild current.children token.label.parentOrSelf with
    | none => (token :: rest).map pathToken.token
    | some child =>
      (if child.specificLabel.Important && child.tokenCounts.isSignificant token.token
        then token.token else child.specificLabel.Value) :: pathWalk child rest

/-- urlTree.path of groupurl.go. -/
def urlTree.path (t : urlTree) (tokens : List pathToken) : List (List Char) :=
  pathWalk t.Root tokens

/-- The training walk of urlTree.add of groupurl.go, started at any node: find or
create the child at the parentOrSelf key; when the child's display Value differs
from the token's specific Value, set the display label to the parent key and the
counter's limit to the parent's CardinalityLimit field; record the raw token in
the child's counter; descend. -/
def addWalk : urlNode → List pathToken → urlNode
  | current, [] => current
  | current, token :: rest =>
    let parent := token.label.parentOrSelf
    let child0 :=
      match lookupChild current.children parent with
      | some c => c
      | none => newURLNode token.label.fields
    let child1 :=
      if child0.specificLabel.Value ≠ token.label.fields.Value then
        urlNode.mk parent child0.children
          ⟨parent.CardinalityLimit, child0.tokenCounts.total, child0.tokenCounts.tokenCounts⟩
      else child0
    let child2 := urlNode.mk child1.specificLabel child1.children
      (child1.tokenCounts.add token.token)
    urlNode.mk current.specificLabel
      (insertChild current.children parent (addWalk child2 rest)) current.tokenCounts

/-- urlTree.add of groupurl.go. -/
def urlTree.add (t : urlTree) (tokens : List pathToken) : urlTree :=
  ⟨addWalk t.Root tokens⟩

/-- The key used by Grouper.getTree of groupurl.go: the number of '/' characters
in the path after trimming leading and trailing '/'. -/
def slashKey (path : List Char) : Nat :=
  countSlash (trimRightSlash (trimLeftSlash path))

/-- Go map lookup on the forest (map[int]urlTree). -/
def lookupTree : List (Nat × urlTree) → Nat → Option urlTree
  | [], _ => none
  | (k, v) :: rest, key => if k = key then some v else lookupTree rest key

/-- Grouper of groupurl.go. -/
structure Grouper where
  classifiers : List PathTokenClassifier
  trees : List (Nat × urlTree)

/-- Grouper.getTree of groupurl.go: select the tree for the path's key, creating
and inserting a fresh tree into the trees map when absent (a mutation of the
Grouper's shared map, returned here as the second component). -/
def Grouper.getTree (g : Grouper) (path : List Char) : urlTree × Grouper :=
  match lookupTree g.trees (slashKey path) with
  | some t => (t, g)
  | none => (newURLTree, ⟨g.classifiers, (slashKey path, newURLTree) :: g.trees⟩)

/-- strings.Join(parts, "/"). -/
def joinSegs : List (List Char) → List Char
  | [] => []
  | [x] => x
  | x :: y :: rest => x ++ '/' :: joinSegs (y :: rest)

/-- Grouper.SimplifyPath of groupurl.go, with the tokenizer's fuel made explicit:
tokenize, select or create the tree, walk it, and join the replaced segments with
'/' prefixed by a leading '/'. -/
def Grouper.SimplifyPathFuel (fuel : Nat) (g : Grouper) (path : List Char) :
    Option (List Char × Grouper) :=
  match labelPathTokensFuel fuel path g.classifiers with
  | none => none
  | some tokens =>
    match g.getTree path with
    | (t, g') => some ('/' :: joinSegs (t.path tokens), g')

/-- The claim's segment count: the number of '/'-delimited non-empty segments,
i.e. of maximal runs of non-'/' characters (the Boolean tracks being inside a run). -/
def segCountAux : Bool → List Char → Nat
  | _, [] => 0
  | inSeg, c :: rest =>
    if c = '/' then segCountAux false rest
    else (if inSeg then 0 else 1) + segCountAux true rest

/-- The claim's segment count of a whole path. -/
def segCount (s : List Char) : Nat := segCountAux false s

/-- The malformed classifier of the C2 failing input: it always reports a match,
with a non-zero label and an empty matched piece. -/
def stuckClassifier : PathTokenClassifier :=
  fun _ => (⟨⟨false, 0, "X".toList⟩, zeroLabelFields⟩, [])

/-- C2: the tokenizer does not terminate on every chain. With a classifier whose
match is empty but whose label is non-zero, the empty match is a prefix of the
remainder, so the loop consumes nothing and never finishes: the fuelled model
returns none for every fuel bound on path "a". -/
theorem labelPathTokens_nontermination (n : Nat) :
    labelPathTokensFuel n ("a".toList) [stuckClassifier] = none := by
  induction n with
  | zero => rfl
  | succ n ih =>
    have hstep : labelPathTokensFuel (n + 1) ("a".toList) [stuckClassifier] =
        match labelPathTokensFuel n ("a".toList) [stuckClassifier] with
        | none => none
        | some ts =>
          some (⟨trimRightSlash [], (labelPathToken ("a".toList) [stuckClassifier]).1⟩ :: ts) :=
      rfl
    rw [hstep, ih]

/-- C1: one step of the simplification walk, at every node of every trained tree
and for every token sequence: the empty sequence yields no output; when the edge
for the token's parentOrSelf key is missing, all remaining raw tokens are emitted
verbatim and the walk stops; when the edge exists, the raw token is emitted when
the child's display label is Important and the child's Counter judges the token
significant, otherwise the display label's Value, and the walk descends. -/
theorem path_walk_spec (node : urlNode) (tok : pathToken) (rest : List pathToken) :
    pathWalk node [] = [] ∧
    (lookupChild node.children tok.label.parentOrSelf = none →
      pathWalk node (tok :: rest) = (tok :: rest).map pathToken.token) ∧
    (∀ child, lookupChild node.children tok.label.parentOrSelf = some child →
      pathWalk node (tok :: rest) =
        (if child.specificLabel.Important = true ∧
            child.tokenCounts.isSignificant tok.token = true
          then tok.token else child.specificLabel.Value) :: pathWalk child rest) := by
  refine ⟨rfl, ?_, ?_⟩
  · intro h
    simp [pathWalk, h]
  · intro child h
    simp [pathWalk, h, Bool.and_eq_true]

/-- The parent label fields of the C1 witness. -/
def fieldsC1 : LabelFields := ⟨false, 0, "p".toList⟩

/-- The token of the C1 witness: specific fields with Value "x", parent fieldsC1. -/
def tokC1 : pathToken := ⟨"t".toList, ⟨⟨false, 0, "x".toList⟩, fieldsC1⟩⟩

/-- The child node of the C1 witness (display label not Important). -/
def childC1 : urlNode := urlNode.mk fieldsC1 [] (newCaseInsensitiveStringCounter 5)

/-- A node of the C1 witness holding one child edge at key fieldsC1. -/
def nodeC1 : urlNode :=
  urlNode.mk zeroLabelFields [(fieldsC1, childC1)] (newCaseInsensitiveStringCounter 0)

/-- A childless node of the C1 witness. -/
def nodeC1e : urlNode :=
  urlNode.mk zeroLabelFields [] (newCaseInsensitiveStringCounter 0)

/-- C1 witness: with the edge present and a non-Important display label the walk
emits the display Value "p"; with the edge missing it emits the raw token "t". -/
theorem path_walk_spec_witness :
    pathWalk nodeC1 [tokC1] = [("p".toList)] ∧
    pathWalk nodeC1e [tokC1] = [("t".toList)] := by
  constructor
  · have h := (path_walk_spec nodeC1 tokC1 []).2.2 childC1 rfl
    rw [h]
    simp [childC1, fieldsC1, pathWalk, urlNode.specificLabel]
  · have h := (path_walk_spec nodeC1e tokC1 []).2.1 rfl
    rw [h]
    rfl

/-- The training walk does not change the display label of the node it starts at. -/
theorem addWalk_specificLabel (node : urlNode) (ts : List pathToken) :
    (addWalk node ts).specificLabel = node.specificLabel := by
  cases ts with
  | nil => rfl
  | cons t ts => rfl

/-- The training walk does not change the counter of the node it starts at. -/
theorem addWalk_tokenCounts (node : urlNode) (ts : List pathToken) :
    (addWalk node ts).tokenCounts = node.tokenCounts := by
  cases ts with
  | nil => rfl
  | cons t ts => rfl

/-- Assigning into the children map makes the assigned node the one looked up. -/
theorem lookupChild_insertChild_self (m : List (LabelFields × urlNode))
    (k : LabelFields) (v : urlNode) :
    lookupChild (insertChild m k v) k = some v := by
  induction m with
  | nil => simp [insertChild, lookupChild]
  | cons p rest ih =>
    obtain ⟨a, w⟩ := p
    by_cases ha : a = k
    · simp [insertChild, ha, lookupChild]
    · simp [insertChild, ha, lookupChild, ih]

/-- Shape of one training step when the edge exists and the display Value differs
from the token's specific Value: the stored child is the recursive walk from the
promoted child (display label set to the parent key, counter limit set to the
parent's CardinalityLimit field) after recording the raw token. -/
theorem addWalk_cons_found (node : urlNode) (tok : pathToken) (rest : List pathToken)
    (child : urlNode)
    (hlook : lookupChild node.children tok.label.parentOrSelf = some child)
    (hdiff : child.specificLabel.Value ≠ tok.label.fields.Value) :
    addWalk node (tok :: rest) =
      urlNode.mk node.specificLabel
        (insertChild node.children tok.label.parentOrSelf
          (addWalk (urlNode.mk tok.label.parentOrSelf child.children
            (caseInsensitiveStringCounter.add
              ⟨tok.label.parentOrSelf.CardinalityLimit, child.tokenCounts.total,
                child.tokenCounts.tokenCounts⟩ tok.token)) rest))
        node.tokenCounts := by
  simp only [addWalk, hlook]
  rw [if_pos hdiff]
  rfl

/-- C6 amended: during add, whenever the child reached via the parentOrSelf key
has a display Value different from the token's specific Value, the child stored
back has its display label set to the parent key itself and its counter limit
set to the parent's CardinalityLimit field (not the derived cardinalityLimit()). -/
theorem add_promotion_spec (node : urlNode) (tok : pathToken) (rest : List pathToken)
    (child : urlNode)
    (hlook : lookupChild node.children tok.label.parentOrSelf = some child)
    (hdiff : child.specificLabel.Value ≠ tok.label.fields.Value) :
    ∃ c, lookupChild (addWalk node (tok :: rest)).children tok.label.parentOrSelf = some c ∧
      c.specificLabel = tok.label.parentOrSelf ∧
      c.tokenCounts.limit = tok.label.parentOrSelf.CardinalityLimit := by
  rw [addWalk_cons_found node tok rest child hlook hdiff]
  refine ⟨addWalk (urlNode.mk tok.label.parentOrSelf child.children
      (caseInsensitiveStringCounter.add
        ⟨tok.label.parentOrSelf.CardinalityLimit, child.tokenCounts.total,
          child.tokenCounts.tokenCounts⟩ tok.token)) rest, ?_, ?_, ?_⟩
  · exact lookupChild_insertChild_self _ _ _
  · rw [addWalk_specificLabel]
    rfl
  · rw [addWalk_tokenCounts]
    show (caseInsensitiveStringCounter.add _ tok.token).limit = _
    rw [counterAdd_limit]

/-- The shared parent key of the C6 counterexample (CardinalityLimit 0, not Important,
so its derived cardinalityLimit() is -1 while its raw field is 0). -/
def fieldsC6 : LabelFields := ⟨false, 0, "p".toList⟩

/-- Existing child of the C6 counterexample, display label ⟨true, 5, "x"⟩. -/
def childC6 : urlNode := urlNode.mk ⟨true, 5, "x".toList⟩ [] (newCaseInsensitiveStringCounter 5)

/-- Node of the C6 counterexample with the child stored at key fieldsC6. -/
def nodeC6 : urlNode :=
  urlNode.mk zeroLabelFields [(fieldsC6, childC6)] (newCaseInsensitiveStringCounter 0)

/-- C6 token A: specific fields ⟨false, 0, "x"⟩ differ from the child's display label
but share its Value "x"; parent fieldsC6. -/
def tokC6A : pathToken := ⟨"t".toList, ⟨⟨false, 0, "x".toList⟩, fieldsC6⟩⟩

/-- C6 token B: specific Value "y" differs from the child's "x"; parent fieldsC6. -/
def tokC6B : pathToken := ⟨"t".toList, ⟨⟨true, 7, "y".toList⟩, fieldsC6⟩⟩

/-- C6 counterexample. Token A: the child's specificLabel differs from the token's
specific label fields (the claim's trigger), the edge exists, yet after add the
stored display label is unchanged, not promoted to the parent key (the code
compares only the Value field, which both share). Token B: promotion does fire,
but the stored counter limit is the parent's raw CardinalityLimit field 0, not
the parent's derived cardinality limit cardinalityLimit() = -1. -/
theorem add_promotion_cex :
    childC6.specificLabel ≠ tokC6A.label.fields ∧
    lookupChild nodeC6.children tokC6A.label.parentOrSelf = some childC6 ∧
    (lookupChild (addWalk nodeC6 [tokC6A]).children tokC6A.label.parentOrSelf).map
        urlNode.specificLabel = some ⟨true, 5, "x".toList⟩ ∧
    (⟨true, 5, ("x".toList)⟩ : LabelFields) ≠ tokC6A.label.parentOrSelf ∧
    (lookupChild (addWalk nodeC6 [tokC6B]).children tokC6B.label.parentOrSelf).map
        (fun c => c.tokenCounts.limit) = some 0 ∧
    tokC6B.label.parentOrSelf.cardinalityLimit = -1 := by
  exact ⟨by decide, rfl, by decide, by decide, by decide, by decide⟩

/-- C6 witness: applying the amended promotion theorem at node nodeC6 with token B,
whose specific Value "y" differs from the stored display Value "x". -/
theorem add_promotion_spec_witness :
    ∃ c, lookupChild (addWalk nodeC6 [tokC6B]).children tokC6B.label.parentOrSelf = some c ∧
      c.specificLabel = tokC6B.label.parentOrSelf ∧
      c.tokenCounts.limit = tokC6B.label.parentOrSelf.CardinalityLimit :=
  add_promotion_spec nodeC6 tokC6B [] childC6 rfl (by decide)

/-- C10: SimplifyPath mutates the Grouper. When the trees map has no tree for the
path's key, any completed SimplifyPath call leaves a freshly created empty tree
stored in the trees map at that key. -/
theorem simplifyPath_inserts_tree (g : Grouper) (path : List Char) (fuel : Nat)
    (res : List Char × Grouper)
    (habs : lookupTree g.trees (slashKey path) = none)
    (hrun : Grouper.SimplifyPathFuel fuel g path = some res) :
    lookupTree res.2.trees (slashKey path) = some newURLTree := by
  unfold Grouper.SimplifyPathFuel at hrun
  cases htok : labelPathTokensFuel fuel path g.classifiers with
  | none =>
    rw [htok] at hrun
    cases hrun
  | some tokens =>
    rw [htok] at hrun
    unfold Grouper.getTree at hrun
    rw [habs] at hrun
    simp only [Option.some.injEq] at hrun
    rw [← hrun]
    simp [lookupTree]

/-- The empty Grouper of the C10 witness: no classifiers, no trees. -/
def grouperC10 : Grouper := ⟨[], []⟩

/-- C10 witness: simplifying path "a" on the empty Grouper with fuel 2 completes
and stores a fresh empty tree at key 0. -/
theorem simplifyPath_inserts_tree_witness :
    lookupTree [((0 : Nat), newURLTree)] (slashKey ("a".toList)) = some newURLTree :=
  simplifyPath_inserts_tree grouperC10 ("a".toList) 2
    ("/a".toList, ⟨[], [(0, newURLTree)]⟩) rfl rfl

/-- C5 counterexample: for the path "/a/b" the getTree key is 1, while the number
of '/'-delimited non-empty segments after trimming is 2. -/
theorem getTree_key_not_segment_count :
    slashKey ("/a/b".toList) = 1 ∧ segCount ("/a/b".toList) = 2 ∧ (1 : Nat) ≠ 2 := by
  decide

/-- countSlash distributes over append. -/
theorem countSlash_append (a b : List Char) :
    countSlash (a ++ b) = countSlash a + countSlash b := by
  induction a with
  | nil => simp [countSlash]
  | cons c rest ih =>
    simp [countSlash, ih]
    omega

/-- A slash-free string has no '/' to count. -/
theorem countSlash_eq_zero (x : List Char) (hx : '/' ∉ x) : countSlash x = 0 := by
  induction x with
  | nil => rfl
  | cons c rest ih =>
    have hc : ¬ c = '/' := fun he => hx (by simp [he])
    have h' : '/' ∉ rest := fun hm => hx (List.mem_cons_of_mem _ hm)
    simp [countSlash, hc, ih h']

/-- Inside a segment, slash-free characters do not open a new segment. -/
theorem segCountAux_true_skip (t : List Char) (ht : '/' ∉ t) (r : List Char) :
    segCountAux true (t ++ r) = segCountAux true r := by
  induction t with
  | nil => rfl
  | cons c rest ih =>
    have hc : ¬ c = '/' := fun he => ht (by simp [he])
    have h' : '/' ∉ rest := fun hm => ht (List.mem_cons_of_mem _ hm)
    simp [segCountAux, hc, ih h']

/-- The head of the join of a list of non-empty segments is the head of the first segment. -/
theorem joinSegs_cons_head (c : Char) (t : List Char) (rest : List (List Char)) :
    ∃ u, joinSegs ((c :: t) :: rest) = c :: u := by
  cases rest with
  | nil => exact ⟨t, rfl⟩
  | cons y r => exact ⟨t ++ '/' :: joinSegs (y :: r), rfl⟩

/-- The join of non-empty slash-free segments ends in a non-'/' character. -/
theorem joinSegs_ends (segs : List (List Char)) (hne : segs ≠ [])
    (hseg : ∀ x ∈ segs, x ≠ [] ∧ '/' ∉ x) :
    ∃ t c, joinSegs segs = t ++ [c] ∧ c ≠ '/' := by
  induction segs with
  | nil => cases hne rfl
  | cons x rest ih =>
    cases rest with
    | nil =>
      obtain ⟨hxne, hxs⟩ := hseg x (by simp)
      refine ⟨x.dropLast, x.getLast hxne, ?_, ?_⟩
      · show x = x.dropLast ++ [x.getLast hxne]
        exact (List.dropLast_append_getLast hxne).symm
      · exact fun he => hxs (he ▸ List.getLast_mem hxne)
    | cons y rest' =>
      obtain ⟨t, c, hj, hc⟩ := ih (by simp) (fun z hz => hseg z (by simp [hz]))
      refine ⟨x ++ '/' :: t, c, ?_, hc⟩
      show x ++ '/' :: joinSegs (y :: rest') = (x ++ '/' :: t) ++ [c]
      rw [hj]
      simp

/-- Number of slashes of the join of non-empty slash-free segments. -/
theorem joinSegs_countSlash (segs : List (List Char)) (hne : segs ≠ [])
    (hseg : ∀ x ∈ segs, '/' ∉ x) :
    countSlash (joinSegs segs) + 1 = segs.length := by
  induction segs with
  | nil => cases hne rfl
  | cons x rest ih =>
    cases rest with
    | nil => simp [joinSegs, countSlash_eq_zero x (hseg x (by simp))]
    | cons y rest' =>
      have hx : '/' ∉ x := hseg x (by simp)
      have ihr := ih (by simp) (fun z hz => hseg z (by simp [hz]))
      show countSlash (x ++ '/' :: joinSegs (y :: rest')) + 1 = _
      rw [countSlash_append, countSlash_eq_zero x hx]
      simp only [countSlash] at *
      simp at ihr ⊢
      omega

/-- Segment count of the join of non-empty slash-free segments. -/
theorem joinSegs_segCount (segs : List (List Char)) (hne : segs ≠ [])
    (hseg : ∀ x ∈ segs, x ≠ [] ∧ '/' ∉ x) :
    segCount (joinSegs segs) = segs.length := by
  induction segs with
  | nil => cases hne rfl
  | cons x rest ih =>
    obtain ⟨hxne, hxs⟩ := hseg x (by simp)
    obtain ⟨c, t, rfl⟩ : ∃ c t, x = c :: t := by
      cases x with
      | nil => cases hxne rfl
      | cons c t => exact ⟨c, t, rfl⟩
    have hc : ¬ c = '/' := fun he => hxs (by simp [he])
    have ht : '/' ∉ t := fun hm => hxs (List.mem_cons_of_mem _ hm)
    cases rest with
    | nil =>
      show segCountAux false (c :: t) = 1
      rw [show segCountAux false (c :: t) = 1 + segCountAux true t by simp [segCountAux, hc]]
      have := segCountAux_true_skip t ht []
      simp at this
      rw [this]
      rfl
    | cons y rest' =>
      have ihr := ih (by simp) (fun z hz => hseg z (by simp [hz]))
      show segCountAux false ((c :: t) ++ '/' :: joinSegs (y :: rest')) = _
      rw [show ((c :: t) ++ '/' :: joinSegs (y :: rest')) =
        c :: (t ++ '/' :: joinSegs (y :: rest')) from rfl]
      rw [show segCountAux false (c :: (t ++ '/' :: joinSegs (y :: rest'))) =
        1 + segCountAux true (t ++ '/' :: joinSegs (y :: rest')) by simp [segCountAux, hc]]
      rw [segCountAux_true_skip t ht]
      rw [show segCountAux true ('/' :: joinSegs (y :: rest')) =
        segCountAux false (joinSegs (y :: rest')) by simp [segCountAux]]
      show 1 + segCount (joinSegs (y :: rest')) = _
      rw [ihr]
      simp
      omega

/-- Trimming on the left does nothing when the head is not '/'. -/
theorem trimLeftSlash_noSlashHead (c : Char) (s : List Char) (hc : c ≠ '/') :
    trimLeftSlash (c :: s) = c :: s := by
  simp [trimLeftSlash, hc]

/-- Trimming on the right does nothing when the last character is not '/'. -/
theorem trimRightSlash_lastNonSlash (t : List Char) (c : Char) (hc : c ≠ '/') :
    trimRightSlash (t ++ [c]) = t ++ [c] := by
  unfold trimRightSlash
  rw [List.reverse_append]
  show (trimLeftSlash (c :: t.reverse)).reverse = t ++ [c]
  rw [trimLeftSlash_noSlashHead c _ hc]
  simp

/-- C5 amended: the getTree key is the count of '/' characters after trimming the
leading and trailing '/' — for a path of non-empty slash-free segments (with a
leading '/') this is one less than the claim's segment count, not equal to it. -/
theorem getTree_key_slash_count (segs : List (List Char)) (hne : segs ≠ [])
    (hseg : ∀ x ∈ segs, x ≠ [] ∧ '/' ∉ x) :
    slashKey ('/' :: joinSegs segs) + 1 = segs.length ∧
    segCount ('/' :: joinSegs segs) = segs.length := by
  obtain ⟨t, c, hj, hc⟩ := joinSegs_ends segs hne hseg
  have htrimR : trimRightSlash (joinSegs segs) = joinSegs segs := by
    rw [hj]
    exact trimRightSlash_lastNonSlash t c hc
  have htrimL : trimLeftSlash (joinSegs segs) = joinSegs segs := by
    obtain ⟨x, rest, rfl⟩ : ∃ x rest, segs = x :: rest := by
      cases segs with
      | nil => cases hne rfl
      | cons x rest => exact ⟨x, rest, rfl⟩
    obtain ⟨hxne, hxs⟩ := hseg x (by simp)
    obtain ⟨cx, tx, rfl⟩ : ∃ cx tx, x = cx :: tx := by
      cases x with
      | nil => cases hxne rfl
      | cons cx tx => exact ⟨cx, tx, rfl⟩
    have hcx : cx ≠ '/' := fun he => hxs (by simp [he])
    obtain ⟨u, hu⟩ := joinSegs_cons_head cx tx rest
    rw [hu]
    exact trimLeftSlash_noSlashHead cx u hcx
  constructor
  · unfold slashKey
    rw [show trimLeftSlash ('/' :: joinSegs segs) = trimLeftSlash (joinSegs segs) by
      simp [trimLeftSlash]]
    rw [htrimL, htrimR]
    exact joinSegs_countSlash segs hne (fun x hx => (hseg x hx).2)
  · show segCountAux false ('/' :: joinSegs segs) = _
    rw [show segCountAux false ('/' :: joinSegs segs) =
      segCountAux false (joinSegs segs) by simp [segCountAux]]
    exact joinSegs_segCount segs hne hseg

/-- C5 witness: the path "/a/b" built from segments "a" and "b" has key 1 and
segment count 2. -/
theorem getTree_key_slash_count_witness :
    slashKey ('/' :: joinSegs [("a".toList), ("b".toList)]) + 1 = 2 ∧
    segCount ('/' :: joinSegs [("a".toList), ("b".toList)]) = 2 :=
  getTree_key_slash_count [("a".toList), ("b".toList)] (by decide) (by decide)
